import Mathlib

set_option maxRecDepth 8000

/-!
Shallow embedding of the phonetic transcription segmentation & validation
engine of `src/check_chars.py` together with the symbol inventory of
`src/assets.py`.  Strings are modelled as `List Char`; phone tokens as
`List Char` as well.  Python's `re`-based operations are modelled by
deterministic recursive matchers; every place where the determinisation
relies on a property of the concrete patterns is noted in a comment.
-/

/-! ## assets.py: the phoneme inventory -/

/-- `DIPTHONGS` of assets.py (two-character diphthongs). -/
def DIPTHONGS : List (List Char) :=
  ["aɪ", "aʊ", "eɪ", "ɔɪ", "əʊ", "ɛə", "ɪə", "ʊə"].map String.toList

/-- `LONG_VOWELS` of assets.py (two-character long vowels). -/
def LONG_VOWELS : List (List Char) :=
  ["iː", "uː", "ɑː", "ɔː", "ɜː"].map String.toList

/-- `SHORT_VOWELS` of assets.py; each entry is a single character. -/
def SHORT_VOWELS : List Char :=
  ['i', 'ʊ', 'æ', 'ɐ', 'ɒ', 'ə', 'ɛ', 'ɪ']

/-- `AFFRICATES` of assets.py (two-character affricates). -/
def AFFRICATES : List (List Char) :=
  ["dʒ", "tʃ"].map String.toList

/-- `CONSONANTS` of assets.py; each entry is a single character.  Note that
the source file lists the two stress markers `ˈ` and `ˌ` as consonants. -/
def CONSONANTS : List Char :=
  ['p', 'b', 't', 'd', 'k', 'g', 'f', 'v', 's', 'z', 'ð', 'θ', 'ʃ', 'ʒ',
   'm', 'n', 'ŋ', 'j', 'l', 'w', 'ɹ', 'h', 'ˈ', 'ˌ']

/-- `REMOVE = '͡.'`: the two characters stripped by `phones_str6`. -/
def removeChars : List Char := ['͡', '.']

/-! ## check_chars.py: derived symbol sets -/

/-- Short vowels as one-character tokens. -/
def shortVowelToks : List (List Char) := SHORT_VOWELS.map (fun c => [c])

/-- Consonants as one-character tokens. -/
def consToks : List (List Char) := CONSONANTS.map (fun c => [c])

/-- The characters matched by `regex_phonemes` when it is applied to a single
character (as in the scan loop): a one-character string matches the
alternation of all phonemes iff the character is itself a one-character
phoneme, i.e. a consonant or a short vowel (a two-character alternative can
never match inside a one-character string). -/
def singlePhonemeChars : List Char := CONSONANTS ++ SHORT_VOWELS

/-- The two-character phonemes, `AFFRICATES | LONG_VOWELS | DIPTHONGS`
(the `is_biphone` pattern; on a two-character string a match is exactly
membership, so alternation order is irrelevant). -/
def biphoneToks : List (List Char) := AFFRICATES ++ LONG_VOWELS ++ DIPTHONGS

/-- The `first_char_biphone` set: first characters of every biphone. -/
def biphoneFirstChars : List Char := biphoneToks.filterMap List.head?

/-- The two stress marker characters (the `[ˌˈ]` class of the stress passes). -/
def markerChars : List Char := ['ˈ', 'ˌ']

/-- `VOWELS = SHORT_VOWELS | LONG_VOWELS | DIPTHONGS` of check_chars.py. -/
def VOWELS : List (List Char) := shortVowelToks ++ LONG_VOWELS ++ DIPTHONGS

/-- The union used by the final check (line 92 of check_chars.py):
`DIPTHONGS | LONG_VOWELS | SHORT_VOWELS | AFFRICATES | CONSONANTS`. -/
def phonemeToks : List (List Char) :=
  DIPTHONGS ++ LONG_VOWELS ++ shortVowelToks ++ AFFRICATES ++ consToks

/-! ## The pre-cleaning of the raw transcription (lines 48-49) -/

/-- Python `str.strip(c)`: remove every leading and trailing occurrence. -/
def stripAll (c : Char) (s : List Char) : List Char :=
  ((s.dropWhile (· = c)).reverse.dropWhile (· = c)).reverse

/-- Python `str.replace(abc, "")` for a three-character pattern: left-to-right
non-overlapping removal. -/
def removeTri (a b c : Char) : List Char → List Char
  | x :: y :: z :: rest =>
    if x = a ∧ y = b ∧ z = c then removeTri a b c rest
    else x :: removeTri a b c (y :: z :: rest)
  | s => s

/-- Lines 48-49: strip the enclosing slashes, remove `.`, then remove the
parenthesised optional sounds `(ɹ)` and `(ə)` (in that order; the dots are
removed before the parenthesised patterns, exactly as in the source). -/
def cleanIpa (s : List Char) : List Char :=
  removeTri '(' 'ə' ')' (removeTri '(' 'ɹ' ')' ((stripAll '/' s).filter (· ≠ '.')))

/-! ## The tokenizer scan (lines 51-74) -/

/-- Line 59: `c[0] = c[0].replace("ɚ", "ə")`, applied per character. -/
def foldChar (c : Char) : Char := if c = 'ɚ' then 'ə' else c

/-- The loop state of the scan: `last_was_biphone`, `last_c`, `phones`,
`error`. -/
structure ScanSt where
  lastWasBiphone : Bool
  lastC : Char
  phones : List (List Char)
  error : Bool
deriving DecidableEq, Repr

/-- One iteration of the `for c in ipa_all` loop.  `fin` is the raw (unfolded)
final character of the cleaned transcription, `isLast` tells whether the
current position is the final one.  The guard on line 70 compares
`ipa_all[-1][0] != c[0]`; since line 59 mutates the list cell in place, at
every non-final position the comparison is against the *raw* final character,
while at the final position both sides are the same (already folded) cell, so
the comparison is always false there — hence the `isLast = false` conjunct. -/
def scanStep (fin : Char) (isLast : Bool) (st : ScanSt) (c0 : Char) : ScanSt :=
  let c := foldChar c0
  if st.lastWasBiphone then
    if [st.lastC, c] ∈ biphoneToks then
      ⟨false, c, st.phones ++ [[st.lastC, c]], st.error⟩
    else if c ∈ singlePhonemeChars then
      ⟨false, c, st.phones ++ [[st.lastC], [c]], st.error⟩
    else
      ⟨false, c, st.phones, true⟩
  else if c ∈ biphoneFirstChars ∧ isLast = false ∧ fin ≠ c then
    ⟨true, c, st.phones, st.error⟩
  else
    ⟨false, c, st.phones ++ [[c]], st.error⟩

/-- The whole scan loop. -/
def scanGo (fin : Char) : ScanSt → List Char → ScanSt
  | st, [] => st
  | st, c :: rest => scanGo fin (scanStep fin rest.isEmpty st c) rest

/-- The initial loop state (`last_c` is never read before it is first
written, so its initial value is irrelevant). -/
def initSt : ScanSt := ⟨false, ' ', [], false⟩

/-- Lines 51-74 as a function from the cleaned transcription to the token
list and the soft-error flag. -/
def scanAll (ipa : List Char) : List (List Char) × Bool :=
  let st := scanGo (ipa.getLastD ' ') initSt ipa
  (st.phones, st.error)

/-- `' '.join(phones)` (line 76). -/
def joinToks : List (List Char) → List Char
  | [] => []
  | [t] => t
  | t :: t2 :: ts => t ++ ' ' :: joinToks (t2 :: ts)

/-! ## The stress-repositioning regex cascade (lines 78-83)

The four patterns have the common shape

  `( |^)([ˌˈ]) C C ... C (V)` with `C = ([consonants]|dʒ|tʃ)`

with k = 4, 3, 2, 1 copies of ` C`, and replacement
`\1 C ... C \2V` (the marker fuses onto the vowel).  The Python matcher
backtracks, but on these patterns the choice points are mutually exclusive:

* in `( |^)` the two branches require a leading space resp. a marker at the
  very start, and `' '` is not a marker;
* in `C`, the one-character class branch is viable only when the following
  pattern character (always a literal space) matches, while the `dʒ`/`tʃ`
  branches require that same position to be `ʒ`/`ʃ`;
* the vowel alternation is last in the pattern, and no two vowels are
  related as prefix except a short vowel before a long one, in which case
  both alternatives produce the identical substitution result, so taking the
  longest first is faithful.

Hence the deterministic matchers below compute exactly `re.sub`'s result. -/

/-- Match the group `( |^)`. -/
def matchG1 (atStart : Bool) (s : List Char) : Option (List Char × List Char) :=
  match s with
  | [] => if atStart then some ([], []) else none
  | c :: s1 =>
    if c = ' ' then some ([' '], s1)
    else if atStart then some ([], c :: s1) else none

/-- Match one `([consonants]|dʒ|tʃ)` group that is followed in the pattern by
a literal space (every `C` group is).  The class branch is returned only when
the next character is that space; otherwise the affricate branches are the
only viable ones. -/
def matchC (s : List Char) : Option (List Char × List Char) :=
  match s with
  | c1 :: c2 :: rest =>
    if c1 ∈ CONSONANTS ∧ c2 = ' ' then some ([c1], c2 :: rest)
    else if (c1 = 'd' ∧ c2 = 'ʒ') ∨ (c1 = 't' ∧ c2 = 'ʃ') then some ([c1, c2], rest)
    else none
  | _ => none

/-- Match the final vowel group (longest alternative first; see the header
comment for why this is faithful). -/
def matchV (s : List Char) : Option (List Char × List Char) :=
  match s with
  | c1 :: c2 :: rest =>
    if [c1, c2] ∈ LONG_VOWELS ++ DIPTHONGS then some ([c1, c2], rest)
    else if c1 ∈ SHORT_VOWELS then some ([c1], c2 :: rest)
    else none
  | [c1] => if c1 ∈ SHORT_VOWELS then some ([c1], []) else none
  | [] => none

/-- Match `k` copies of ` C` (a literal space before each consonant group). -/
def matchCluster : Nat → List Char → Option (List (List Char) × List Char)
  | 0, s => some ([], s)
  | _ + 1, [] => none
  | k + 1, c :: s1 =>
    if c = ' ' then
      match matchC s1 with
      | some (t, s2) =>
        match matchCluster k s2 with
        | some (ts, s3) => some (t :: ts, s3)
        | none => none
      | none => none
    else none

/-- The part of the pass-`k` pattern after the marker group: `k` copies of
` C`, then a literal space, then the vowel group; on success the whole
replacement `\1\3 \4 ... \2\vowel = g1 ++ cluster ++ " " ++ marker ++ vowel`
is returned with the unconsumed remainder. -/
def matchTail (k : Nat) (g1 : List Char) (m : Char) (s2 : List Char) :
    Option (List Char × List Char) :=
  match matchCluster k s2 with
  | some (ts, s3) =>
    match s3 with
    | [] => none
    | c3 :: s4 =>
      if c3 = ' ' then
        match matchV s4 with
        | some (v, s5) => some (g1 ++ joinToks ts ++ ' ' :: m :: v, s5)
        | none => none
      else none
  | none => none

/-- Try the whole pass-`k` pattern at the current position and, on success,
return the replacement text together with the unconsumed remainder (the
engine only ever uses `k ∈ {4,3,2,1}`). -/
def matchPass (k : Nat) (atStart : Bool) (s : List Char) : Option (List Char × List Char) :=
  match matchG1 atStart s with
  | none => none
  | some (g1, s1) =>
    match s1 with
    | [] => none
    | m :: s2 => if m ∈ markerChars then matchTail k g1 m s2 else none

/-- The left-to-right, non-overlapping `re.sub` scan for pass `k`, with fuel
(the fuel is always instantiated with the string length, which suffices since
every step consumes at least one character). -/
def scanSubF (k : Nat) : Nat → Bool → List Char → List Char
  | 0, _, s => s
  | fuel + 1, atStart, s =>
    match matchPass k atStart s with
    | some (repl, rest) => repl ++ scanSubF k fuel false rest
    | none =>
      match s with
      | [] => []
      | c :: cs => c :: scanSubF k fuel false cs

/-- One full `re.sub` pass of cluster length `k`. -/
def scanSub (k : Nat) (s : List Char) : List Char := scanSubF k s.length true s

/-! ## The post-processing (lines 84-87) -/

/-- Python `str.replace('  ', ' ')`: one left-to-right non-overlapping pass. -/
def replaceSS : List Char → List Char
  | [] => []
  | [c] => [c]
  | c1 :: c2 :: rest =>
    if c1 = ' ' ∧ c2 = ' ' then ' ' :: replaceSS rest
    else c1 :: replaceSS (c2 :: rest)

/-- Python `str.replace(m ++ " ", m)` for a marker `m` (used by
`phones_str7`). -/
def replaceMS (m : Char) : List Char → List Char
  | [] => []
  | [c] => [c]
  | c1 :: c2 :: rest =>
    if c1 = m ∧ c2 = ' ' then m :: replaceMS m rest
    else c1 :: replaceMS m (c2 :: rest)

/-- Python `str.replace(a ++ " " ++ b, a ++ b)` (used by `phones_str8`). -/
def mergeAff (a b : Char) : List Char → List Char
  | x :: y :: z :: rest =>
    if x = a ∧ y = ' ' ∧ z = b then a :: b :: mergeAff a b rest
    else x :: mergeAff a b (y :: z :: rest)
  | s => s

/-- Lines 78-87: from the space-joined token string `phones_str` to
`phones_str7`, the string that is both validated and attached to the record:
the four stress passes, then strip/collapse the spaces, strip the characters
of `REMOVE`, and fuse `"ˌ "`/`"ˈ "`. -/
def normalizeStr (s : List Char) : List Char :=
  let s1 := scanSub 4 s
  let s2 := scanSub 3 s1
  let s3 := scanSub 2 s2
  let s4 := scanSub 1 s3
  let s5 := replaceSS (stripAll ' ' s4)
  let s6 := s5.filter (fun c => ¬(c = '͡' ∨ c = '.'))
  replaceMS 'ˈ' (replaceMS 'ˌ' s6)

/-- Line 87: `phones_str8`, the affricate re-merge.  It is computed by the
source but never used afterwards (both the final check and the record use
`phones_str7`). -/
def phonesStr8 (s7 : List Char) : List Char :=
  mergeAff 't' 'ʃ' (mergeAff 'd' 'ʒ' s7)

/-! ## The final check and `check_char` (lines 89-102) -/

/-- `re.sub('[ˈˌ]', '', s)`. -/
def removeStressChars (s : List Char) : List Char :=
  s.filter (fun c => ¬(c = 'ˈ' ∨ c = 'ˌ'))

/-- Python `str.split()` restricted to the space character (the only
whitespace these strings contain): split on runs of spaces, dropping empty
pieces. -/
def splitWsAux : List Char → List Char → List (List Char)
  | acc, [] => if acc = [] then [] else [acc.reverse]
  | acc, c :: rest =>
    if c = ' ' then
      if acc = [] then splitWsAux [] rest else acc.reverse :: splitWsAux [] rest
    else splitWsAux (c :: acc) rest

/-- Python `str.split()` on a string whose only whitespace is `' '`. -/
def splitWs (s : List Char) : List (List Char) := splitWsAux [] s

/-- Lines 89-96: `set(inventory) & set(units) == set(units)` where the units
are the whitespace-split pieces of `phones_str7` with the stress characters
removed. -/
def final_check (s7 : List Char) : Bool :=
  decide (phonemeToks.toFinset ∩ (splitWs (removeStressChars s7)).toFinset
    = (splitWs (removeStressChars s7)).toFinset)

/-- The record passed to `check_char`: the `ipa` string plus all the other
keys of the dict (modelled as an opaque remainder `rest`, which the function
never touches). -/
structure Entry (α : Type) where
  ipa : List Char
  rest : α
deriving DecidableEq, Repr

/-- `phones_str7` as a function of the raw `ipa` value: clean, scan, join,
and normalize. -/
def normalizeIpa (s : List Char) : List Char :=
  normalizeStr (joinToks (scanAll (cleanIpa s)).1)

/-- `check_char` (lines 45-102).  The `if '[' in entry.get('ipa'): error =
True` on line 46 is dead: `error` is unconditionally reset to `False` on line
56 before it is ever read.  The returned flag is the scan's soft-error flag
or-ed with the negated final check, both evaluated on the cleaned `ipa`
string; the returned record is the input record with the `ipa` key replaced
by `phones_str7 = normalizeIpa e.ipa`. -/
def check_char {α : Type} (e : Entry α) : Bool × Entry α :=
  ((scanAll (cleanIpa e.ipa)).2 || !final_check (normalizeIpa e.ipa),
   ⟨normalizeIpa e.ipa, e.rest⟩)

/-! ## The per-entry variant loop of `__main__` (lines 131-144) -/

/-- One element of an entry's `sounds` list: an optional `ipa` string plus
its `tags` (opaque). -/
structure Sound (α : Type) where
  ipa : Option (List Char)
  tags : α
deriving DecidableEq, Repr

/-- The `for s in entry.get('sounds')` loop: variants with a missing or empty
`ipa` are skipped; the first variant rejected by `check_char` breaks out of
the loop, dropping every remaining variant; accepted variants are collected
in order. -/
def processSounds {α : Type} : List (Sound α) → List (Entry α)
  | [] => []
  | s :: rest =>
    match s.ipa with
    | none => processSounds rest
    | some i =>
      if i = [] then processSounds rest
      else
        let r := check_char (⟨i, s.tags⟩ : Entry α)
        if r.1 then [] else r.2 :: processSounds rest

/-! ## Predicates used by the verification of the stress passes -/

/-- A token the `C = ([consonants]|dʒ|tʃ)` group matches in a space-joined
token stream: a single non-marker consonant, or one of the two affricates. -/
def IsClusterTok (t : List Char) : Prop :=
  (∃ c, t = [c] ∧ c ∈ CONSONANTS ∧ c ∉ markerChars)
  ∨ t = ['d', 'ʒ'] ∨ t = ['t', 'ʃ']

/-- `noMatchF k b s`: the pass-`k` pattern matches at no position of `s`
(the flag is the `atStart` flag of the leftmost position). -/
def noMatchF (k : Nat) : Bool → List Char → Bool
  | _, [] => true
  | b, c :: cs => (matchPass k b (c :: cs)).isNone && noMatchF k false cs

/-- No window `space, marker, space` occurs in the string (the shape every
successful pass match needs at its start). -/
def spacesSafe : List Char → Bool
  | c1 :: c2 :: c3 :: rest =>
    (!(decide (c1 = ' ') && decide (c2 ∈ markerChars) && decide (c3 = ' ')))
      && spacesSafe (c2 :: c3 :: rest)
  | _ => true

/-- No two adjacent spaces. -/
def noDouble : List Char → Bool
  | c1 :: c2 :: rest =>
    (!(decide (c1 = ' ') && decide (c2 = ' '))) && noDouble (c2 :: rest)
  | _ => true

/-- No occurrence of the character `m` followed by a space. -/
def noMS (m : Char) : List Char → Bool
  | c1 :: c2 :: rest =>
    (!(decide (c1 = m) && decide (c2 = ' '))) && noMS m (c2 :: rest)
  | _ => true

/-! ## Helper lemmas about the scan -/

/-- A scan step only ever appends to the `phones` accumulator. -/
theorem scanStep_phones (fin : Char) (L : Bool) (st : ScanSt) (c0 : Char) :
    ∃ d, (scanStep fin L st c0).phones = st.phones ++ d := by
  simp only [scanStep]
  split_ifs <;> first
    | exact ⟨_, rfl⟩
    | exact ⟨[], (List.append_nil _).symm⟩

/-- The whole scan only ever appends to the `phones` accumulator. -/
theorem scanGo_phones (fin : Char) (cs : List Char) :
    ∀ st : ScanSt, ∃ d, (scanGo fin st cs).phones = st.phones ++ d := by
  induction cs with
  | nil => exact fun st => ⟨[], (List.append_nil _).symm⟩
  | cons c rest ih =>
    intro st
    obtain ⟨d1, hd1⟩ := scanStep_phones fin rest.isEmpty st c
    obtain ⟨d2, hd2⟩ := ih (scanStep fin rest.isEmpty st c)
    refine ⟨d1 ++ d2, ?_⟩
    simp only [scanGo]
    rw [hd2, hd1, List.append_assoc]

/-! ## Claim C1: biphone precedence -/

/-- C1 (counterexample): the claim "a two-character sequence that is a
registered affricate, long vowel, or diphthong is always emitted as one
token, never as two" fails on the input `tʃt`: the affricate `tʃ` occurs
contiguously, but because its first character `t` equals the transcription's
final character, the guard on line 70 prevents the biphone from opening and
the scan emits `t` and `ʃ` as two separate single-character tokens. -/
theorem c1_biphone_split_cex :
    (∃ pre post, "tʃt".toList = pre ++ "tʃ".toList ++ post)
    ∧ "tʃ".toList ∈ AFFRICATES
    ∧ (scanAll "tʃt".toList).1 = [['t'], ['ʃ'], ['t']]
    ∧ "tʃ".toList ∉ (scanAll "tʃt".toList).1 :=
  ⟨⟨[], ['t'], by decide⟩, by decide, by decide, by decide⟩

/-- C1 (amended): whenever the scanner is *not* already resolving a pending
biphone, the next two characters (after `ɚ`-folding) form a registered
biphone, and the first of them differs from the raw final character of the
transcription, the pair is emitted as one single token. -/
theorem c1_biphone_merge_amended (fin : Char) (st : ScanSt) (a b : Char)
    (rest : List Char) (hst : st.lastWasBiphone = false)
    (hb : [foldChar a, foldChar b] ∈ biphoneToks)
    (hfin : fin ≠ foldChar a) :
    ∃ tail, (scanGo fin st (a :: b :: rest)).phones
      = st.phones ++ ([foldChar a, foldChar b] :: tail) := by
  have h13 : ∀ p ∈ biphoneToks, p.headD ' ' ∈ biphoneFirstChars := by decide
  have hfirst : foldChar a ∈ biphoneFirstChars := h13 _ hb
  have e3 : scanStep fin (b :: rest).isEmpty st a
      = ⟨true, foldChar a, st.phones, st.error⟩ := by
    simp [scanStep, hst, hfirst, hfin]
  have e4 : scanStep fin rest.isEmpty
      (⟨true, foldChar a, st.phones, st.error⟩ : ScanSt) b
      = ⟨false, foldChar b, st.phones ++ [[foldChar a, foldChar b]], st.error⟩ := by
    simp [scanStep, hb]
  have e1 : scanGo fin st (a :: b :: rest)
      = scanGo fin (⟨false, foldChar b, st.phones ++ [[foldChar a, foldChar b]],
          st.error⟩ : ScanSt) rest := by
    simp only [scanGo]
    rw [e3, e4]
  obtain ⟨d, hd⟩ := scanGo_phones fin rest
    (⟨false, foldChar b, st.phones ++ [[foldChar a, foldChar b]], st.error⟩ : ScanSt)
  refine ⟨d, ?_⟩
  rw [e1, hd]
  simp

/-- C1 (witness for the amended theorem, at the worked example `tʃeɪn`). -/
theorem c1_biphone_merge_amended_witness :
    initSt.lastWasBiphone = false
    ∧ [foldChar 't', foldChar 'ʃ'] ∈ biphoneToks
    ∧ ('n' : Char) ≠ foldChar 't'
    ∧ ∃ tail, (scanGo 'n' initSt ('t' :: 'ʃ' :: "eɪn".toList)).phones
        = initSt.phones ++ ([foldChar 't', foldChar 'ʃ'] :: tail) :=
  ⟨by decide, by decide, by decide,
    c1_biphone_merge_amended 'n' initSt 't' 'ʃ' "eɪn".toList
      (by decide) (by decide) (by decide)⟩

/-! ## Claim C2: the pending-biphone guard -/

/-- C2 (counterexample): the claimed "if and only if" fails.  On input `tta`
(final character `a`), at scan position 1 the current character `t` is in the
biphone-opening set and differs from the final character `a`, yet the scanner
does **not** end that step in the pending state: it is busy resolving the
pending biphone opened at position 0, emits `t t` as two tokens and clears
the pending flag. -/
theorem c2_pending_iff_cex :
    scanStep 'a' false initSt 't' = (⟨true, 't', [], false⟩ : ScanSt)
    ∧ foldChar 't' ∈ biphoneFirstChars
    ∧ ('a' : Char) ≠ foldChar 't'
    ∧ (scanStep 'a' false (⟨true, 't', [], false⟩ : ScanSt) 't').lastWasBiphone
        = false := by
  refine ⟨by decide, by decide, by decide, by decide⟩

/-- C2 (amended): *provided the scanner is not already resolving a pending
biphone*, a scan step ends in the pending state iff the (folded) current
character is in the biphone-opening set, the position is not the final one,
and the character differs from the raw final character; and a non-pending
occurrence of a biphone-opening character whose value equals the final
character's value is emitted as a single one-character token. -/
theorem c2_pending_iff_amended (fin : Char) (isLast : Bool) (st : ScanSt)
    (c0 : Char) (hst : st.lastWasBiphone = false) :
    ((scanStep fin isLast st c0).lastWasBiphone = true
      ↔ (foldChar c0 ∈ biphoneFirstChars ∧ isLast = false ∧ fin ≠ foldChar c0))
    ∧ ((foldChar c0 ∈ biphoneFirstChars ∧ fin = foldChar c0) →
        (scanStep fin isLast st c0).phones = st.phones ++ [[foldChar c0]]) := by
  constructor
  · simp only [scanStep, hst, Bool.false_eq_true, if_false]
    split_ifs with h
    · simp [h]
    · simp [h]
  · rintro ⟨h1, h2⟩
    simp [scanStep, hst, h2]

/-- C2 (witness for the amended theorem: `d` opening against final `d`). -/
theorem c2_pending_iff_amended_witness :
    initSt.lastWasBiphone = false
    ∧ (((scanStep 'd' false initSt 'd').lastWasBiphone = true
        ↔ (foldChar 'd' ∈ biphoneFirstChars ∧ false = false ∧ ('d' : Char) ≠ foldChar 'd'))
      ∧ ((foldChar 'd' ∈ biphoneFirstChars ∧ ('d' : Char) = foldChar 'd') →
          (scanStep 'd' false initSt 'd').phones = initSt.phones ++ [[foldChar 'd']])) :=
  ⟨by decide, c2_pending_iff_amended 'd' false initSt 'd' (by decide)⟩

/-! ## Claim C3: the worked 3-consonant stress example -/

/-- C3 (counterexample): on the token stream `ˈ s t r ʌ k ʃ ə n` the engine
does **not** produce `s t r ˈʌ k ʃ ə n`: neither `r` (the inventory has `ɹ`)
nor `ʌ` is a member of the inventory, so no stress pass matches. -/
theorem c3_stress3_cex :
    normalizeStr "ˈ s t r ʌ k ʃ ə n".toList ≠ "s t r ˈʌ k ʃ ə n".toList := by
  decide

/-- C3 (amended): on the stream `ˈ s t r ʌ k ʃ ə n` no stress pass fires
(`r` and `ʌ` are outside the inventory, which has `ɹ` and no `ʌ`); the only
change is the `"ˈ "` fusion, giving `ˈs t r ʌ k ʃ ə n`, and the validator
then flags the result.  On the analogous all-inventory stream
`ˈ s t ɹ æ k ʃ ə n` the 3-consonant pass does rewrite the prefix, yielding
`s t ɹ ˈæ k ʃ ə n` with the marker fused onto the nucleus. -/
theorem c3_stress3_amended :
    normalizeStr "ˈ s t r ʌ k ʃ ə n".toList = "ˈs t r ʌ k ʃ ə n".toList
    ∧ final_check "ˈs t r ʌ k ʃ ə n".toList = false
    ∧ normalizeStr "ˈ s t ɹ æ k ʃ ə n".toList = "s t ɹ ˈæ k ʃ ə n".toList := by
  refine ⟨by decide, by decide, by decide⟩

/-! ## Claim C8: the affricate re-merge is computed but never attached -/

/-- C8: on input `dʒæd` the guard blocks the affricate (its first character
`d` equals the final character), the scan emits `d ʒ` as two tokens, and the
record's normalized string is `phones_str7 = "d ʒ æ d"`, which still contains
the unmerged `d ʒ` — while `phones_str8`, the string the re-merge step
actually produces, would be `dʒ æ d`.  The source computes `phones_str8` on
line 87 and then never uses it: both the final check and the record use
`phones_str7`. -/
theorem c8_affricate_merge_dropped :
    check_char (⟨"dʒæd".toList, ()⟩ : Entry Unit)
      = (false, (⟨"d ʒ æ d".toList, ()⟩ : Entry Unit))
    ∧ (∃ pre post, "d ʒ æ d".toList = pre ++ "d ʒ".toList ++ post)
    ∧ phonesStr8 "d ʒ æ d".toList = "dʒ æ d".toList :=
  ⟨by decide, ⟨[], " æ d".toList, by decide⟩, by decide⟩

/-! ## Claim C5: idempotence -/

/-- C5 (counterexample): re-running the engine on its own normalized output
does not reproduce it.  `tʃeɪn` normalizes to `tʃ eɪ n` with no error, but a
second run tokenizes each literal space as its own token, so joining triples
the inter-token spaces and the single collapse pass only shrinks them to two:
the second output is `tʃ  eɪ  n` ≠ `tʃ eɪ n`. -/
theorem c5_idem_cex :
    (check_char (⟨"tʃeɪn".toList, ()⟩ : Entry Unit)).1 = false
    ∧ (check_char (⟨"tʃeɪn".toList, ()⟩ : Entry Unit)).2.ipa = "tʃ eɪ n".toList
    ∧ (check_char ((check_char (⟨"tʃeɪn".toList, ()⟩ : Entry Unit)).2)).2.ipa
        ≠ (check_char (⟨"tʃeɪn".toList, ()⟩ : Entry Unit)).2.ipa := by
  refine ⟨by decide, by decide, by decide⟩

/-- C5 (amended): idempotence does hold for every space-free normalized
output: each inventory phoneme token, bare or with one fused stress marker in
front, is a fixed point of the engine with error flag `false`.  (In general a
second run changes the inter-token spacing, and it can even introduce errors,
e.g. on the normalized output `ə n`.) -/
theorem c5_idem_amended :
    ∀ t ∈ phonemeToks,
      check_char (⟨t, ()⟩ : Entry Unit) = (false, (⟨t, ()⟩ : Entry Unit))
      ∧ check_char (⟨'ˈ' :: t, ()⟩ : Entry Unit)
          = (false, (⟨'ˈ' :: t, ()⟩ : Entry Unit))
      ∧ check_char (⟨'ˌ' :: t, ()⟩ : Entry Unit)
          = (false, (⟨'ˌ' :: t, ()⟩ : Entry Unit)) := by
  decide

/-- C5 (witness for the amended theorem, at the token `tʃ`). -/
theorem c5_idem_amended_witness :
    "tʃ".toList ∈ phonemeToks
    ∧ (check_char (⟨"tʃ".toList, ()⟩ : Entry Unit)
        = (false, (⟨"tʃ".toList, ()⟩ : Entry Unit))
      ∧ check_char (⟨'ˈ' :: "tʃ".toList, ()⟩ : Entry Unit)
          = (false, (⟨'ˈ' :: "tʃ".toList, ()⟩ : Entry Unit))
      ∧ check_char (⟨'ˌ' :: "tʃ".toList, ()⟩ : Entry Unit)
          = (false, (⟨'ˌ' :: "tʃ".toList, ()⟩ : Entry Unit))) :=
  ⟨by decide, c5_idem_amended "tʃ".toList (by decide)⟩

/-! ## Claim C6: alphabet closure -/

/-- C6: if `check_char` reports no error, then every whitespace-delimited
unit of the normalized string attached to the record, after deleting the
stress-marker characters, is a member of the phoneme inventory.  This is
immediate from the final check, which is exactly this set inclusion. -/
theorem c6_alphabet_closure {α : Type} (e : Entry α)
    (h : (check_char e).1 = false) :
    ∀ u ∈ splitWs (removeStressChars (check_char e).2.ipa), u ∈ phonemeToks := by
  intro u hu
  have h1 : (check_char e).1
      = ((scanAll (cleanIpa e.ipa)).2 || !final_check (normalizeIpa e.ipa)) := by
    simp only [check_char]
  have h2 : (check_char e).2.ipa = normalizeIpa e.ipa := by
    simp only [check_char]
  rw [h1, Bool.or_eq_false_iff] at h
  have hfc : final_check (normalizeIpa e.ipa) = true := by
    have := h.2
    simp only [Bool.not_eq_false'] at this
    exact this
  have hset := of_decide_eq_true hfc
  have hsub :
      (splitWs (removeStressChars (normalizeIpa e.ipa))).toFinset
        ⊆ phonemeToks.toFinset := Finset.inter_eq_right.mp hset
  rw [h2] at hu
  exact List.mem_toFinset.mp (hsub (List.mem_toFinset.mpr hu))

/-- C6 (witness at the input `tʃeɪn`). -/
theorem c6_alphabet_closure_witness :
    (check_char (⟨"tʃeɪn".toList, ()⟩ : Entry Unit)).1 = false
    ∧ ∀ u ∈ splitWs (removeStressChars
        (check_char (⟨"tʃeɪn".toList, ()⟩ : Entry Unit)).2.ipa),
        u ∈ phonemeToks :=
  ⟨by decide, c6_alphabet_closure (⟨"tʃeɪn".toList, ()⟩ : Entry Unit) (by decide)⟩

/-! ## Claim C7: abort on first failing variant -/

/-- C7: for an entry with three pronunciation variants of which the first and
third validate and the second fails, the accepted list is exactly the
normalized first variant: the failing variant breaks out of the loop and the
third variant is dropped even though it would validate in isolation. -/
theorem c7_abort_first_failure {α : Type} (t1 t2 t3 : α)
    (v1 v2 v3 : List Char) (h1n : v1 ≠ []) (h2n : v2 ≠ []) (h3n : v3 ≠ [])
    (h1 : (check_char (⟨v1, t1⟩ : Entry α)).1 = false)
    (h2 : (check_char (⟨v2, t2⟩ : Entry α)).1 = true)
    (h3 : (check_char (⟨v3, t3⟩ : Entry α)).1 = false) :
    processSounds [⟨some v1, t1⟩, ⟨some v2, t2⟩, ⟨some v3, t3⟩]
      = [(check_char (⟨v1, t1⟩ : Entry α)).2] := by
  simp [processSounds, h1n, h2n, h1, h2]

/-- C7 (witness: `tʃeɪn` valid, `2` invalid, `n` valid). -/
theorem c7_abort_first_failure_witness :
    (check_char (⟨"tʃeɪn".toList, ()⟩ : Entry Unit)).1 = false
    ∧ (check_char (⟨"2".toList, ()⟩ : Entry Unit)).1 = true
    ∧ (check_char (⟨"n".toList, ()⟩ : Entry Unit)).1 = false
    ∧ processSounds [⟨some "tʃeɪn".toList, ()⟩, ⟨some "2".toList, ()⟩,
        ⟨some "n".toList, ()⟩]
      = [(check_char (⟨"tʃeɪn".toList, ()⟩ : Entry Unit)).2] :=
  ⟨by decide, by decide, by decide,
    c7_abort_first_failure () () () "tʃeɪn".toList "2".toList "n".toList
      (by decide) (by decide) (by decide) (by decide) (by decide) (by decide)⟩

/-! ## Claim C9: soft errors never abort the scan -/

/-- A scan step treats the error flag as pure data: the flag never influences
the branch taken, and the step's output flag is the input flag or-ed with the
flag the step would produce from a clean state. -/
theorem scanStep_error_split (fin : Char) (L : Bool) (st : ScanSt) (c0 : Char) :
    scanStep fin L st c0
      = ⟨(scanStep fin L ⟨st.lastWasBiphone, st.lastC, st.phones, false⟩ c0).lastWasBiphone,
         (scanStep fin L ⟨st.lastWasBiphone, st.lastC, st.phones, false⟩ c0).lastC,
         (scanStep fin L ⟨st.lastWasBiphone, st.lastC, st.phones, false⟩ c0).phones,
         st.error || (scanStep fin L ⟨st.lastWasBiphone, st.lastC, st.phones, false⟩ c0).error⟩ := by
  simp only [scanStep]
  split_ifs <;> simp

/-- C9: the scan is total and its error signal is delivered solely as data:
for any state and any remaining input, the emitted tokens are independent of
the incoming error flag, and the final flag is the incoming flag or-ed with
the flag produced from a clean start — so an unresolvable character pair only
sets the flag while the scan continues to the end of the string. -/
theorem c9_scan_soft_error (fin : Char) (cs : List Char) : ∀ st : ScanSt,
    (scanGo fin st cs).phones
      = (scanGo fin (⟨st.lastWasBiphone, st.lastC, st.phones, false⟩ : ScanSt) cs).phones
    ∧ (scanGo fin st cs).error
      = (st.error
          || (scanGo fin (⟨st.lastWasBiphone, st.lastC, st.phones, false⟩ : ScanSt) cs).error) := by
  induction cs with
  | nil => intro st; exact ⟨rfl, by simp [scanGo]⟩
  | cons c rest ih =>
    intro st
    obtain ⟨ihp, ihe⟩ := ih (scanStep fin rest.isEmpty st c)
    obtain ⟨ihp0, ihe0⟩ := ih (scanStep fin rest.isEmpty
        (⟨st.lastWasBiphone, st.lastC, st.phones, false⟩ : ScanSt) c)
    have hstep := scanStep_error_split fin rest.isEmpty st c
    constructor
    · show (scanGo fin (scanStep fin rest.isEmpty st c) rest).phones
        = (scanGo fin (scanStep fin rest.isEmpty
            (⟨st.lastWasBiphone, st.lastC, st.phones, false⟩ : ScanSt) c) rest).phones
      rw [ihp, ihp0, hstep]
    · show (scanGo fin (scanStep fin rest.isEmpty st c) rest).error
        = (st.error || (scanGo fin (scanStep fin rest.isEmpty
            (⟨st.lastWasBiphone, st.lastC, st.phones, false⟩ : ScanSt) c) rest).error)
      rw [ihe, ihe0, hstep]
      simp [Bool.or_assoc]

/-! ## Claim C10: only the `ipa` key is replaced -/

/-- C10: `check_char` returns the input record with only the `ipa` key
replaced (by the normalized string); every other key — modelled by the opaque
`rest` component, which in the pipeline holds the `tags` value — is returned
unchanged. -/
theorem c10_frame_ipa_only {α : Type} (e : Entry α) :
    (check_char e).2.rest = e.rest
    ∧ (check_char e).2.ipa = normalizeIpa e.ipa := by
  constructor <;> simp only [check_char]

/-! ## Helper lemmas about token joining -/

theorem joinToks_cons (t : List Char) (ts : List (List Char)) (h : ts ≠ []) :
    joinToks (t :: ts) = t ++ ' ' :: joinToks ts := by
  cases ts with
  | nil => exact absurd rfl h
  | cons t2 ts' => rfl

theorem joinToks_append_single (ts : List (List Char)) (u : List Char) (h : ts ≠ []) :
    joinToks (ts ++ [u]) = joinToks ts ++ ' ' :: u := by
  induction ts with
  | nil => exact absurd rfl h
  | cons t ts' ih =>
    cases ts' with
    | nil => rfl
    | cons t2 ts'' =>
      rw [List.cons_append, joinToks_cons t ((t2 :: ts'') ++ [u]) (by simp),
          ih (by simp), joinToks_cons t (t2 :: ts'') (by simp)]
      simp

theorem joinToks_headChar (t : List Char) (ts : List (List Char)) (h : t ≠ []) :
    (joinToks (t :: ts)).head? = t.head? := by
  cases ts with
  | nil => rfl
  | cons t2 ts2 =>
    rw [joinToks_cons t _ (by simp)]
    cases t with
    | nil => exact absurd rfl h
    | cons a t' => rfl

theorem joinToks_chars (toks : List (List Char)) :
    ∀ c ∈ joinToks toks, c = ' ' ∨ ∃ t ∈ toks, c ∈ t := by
  induction toks with
  | nil => intro c hc; simp [joinToks] at hc
  | cons t ts ih =>
    cases ts with
    | nil => intro c hc; exact Or.inr ⟨t, by simp, hc⟩
    | cons t2 ts2 =>
      intro c hc
      rw [joinToks_cons t _ (by simp)] at hc
      rcases List.mem_append.mp hc with h1 | h2
      · exact Or.inr ⟨t, by simp, h1⟩
      · rcases List.mem_cons.mp h2 with rfl | h3
        · exact Or.inl rfl
        · rcases ih c h3 with h4 | ⟨t', ht', hct'⟩
          · exact Or.inl h4
          · exact Or.inr ⟨t', by simp [ht'], hct'⟩

/-! ## Decidable fact bundles about the inventory -/

theorem vowel_facts : ∀ v ∈ VOWELS,
    v ≠ [] ∧ (∀ c ∈ v, c ≠ ' ' ∧ c ∉ markerChars ∧ c ≠ '͡' ∧ c ≠ '.')
    ∧ matchC v = none ∧ matchV v = some (v, []) ∧ v.getLast? ≠ some ' ' := by
  decide

theorem consonant_facts : ∀ c ∈ CONSONANTS, c ≠ ' ' ∧ c ≠ '͡' ∧ c ≠ '.' := by
  decide

theorem marker_facts : ∀ m ∈ markerChars, m ≠ ' ' ∧ m ∈ CONSONANTS := by decide

theorem clusterTok_facts (t : List Char) (h : IsClusterTok t) :
    t ≠ [] ∧ ∀ c ∈ t, c ∈ CONSONANTS ∧ c ∉ markerChars := by
  rcases h with ⟨c, rfl, hc, hm⟩ | rfl | rfl
  · refine ⟨by simp, ?_⟩
    intro x hx
    rw [List.mem_singleton] at hx
    subst hx
    exact ⟨hc, hm⟩
  · exact ⟨by simp, by decide⟩
  · exact ⟨by simp, by decide⟩

/-! ## Lemmas about the pass matchers on token streams -/

theorem matchC_cluster (t : List Char) (h : IsClusterTok t) (rest : List Char) :
    matchC (t ++ ' ' :: rest) = some (t, ' ' :: rest) := by
  rcases h with ⟨c, rfl, hc, _⟩ | rfl | rfl
  · simp [matchC, hc]
  · simp [matchC]
  · simp [matchC]

theorem matchCluster_exact (ts : List (List Char)) (v : List Char)
    (hts : ∀ t ∈ ts, IsClusterTok t) :
    matchCluster ts.length (' ' :: joinToks (ts ++ [v])) = some (ts, ' ' :: v) := by
  induction ts with
  | nil => rfl
  | cons t ts' ih =>
    have h1 := matchC_cluster t (hts t (by simp)) (joinToks (ts' ++ [v]))
    have h2 := ih (fun t' ht' => hts t' (by simp [ht']))
    have hJ : joinToks ((t :: ts') ++ [v]) = t ++ ' ' :: joinToks (ts' ++ [v]) := by
      rw [List.cons_append, joinToks_cons t _ (by simp)]
    rw [List.length_cons, hJ]
    simp [matchCluster, h1, h2]

theorem matchCluster_succ_space (k : Nat) (s1 : List Char) :
    matchCluster (k + 1) (' ' :: s1)
      = match matchC s1 with
        | some (t, s2) =>
          match matchCluster k s2 with
          | some (ts, s3) => some (t :: ts, s3)
          | none => none
        | none => none := by
  simp [matchCluster]

theorem matchCluster_over (ts : List (List Char)) (v : List Char) (d : Nat)
    (hts : ∀ t ∈ ts, IsClusterTok t) (hv : v ∈ VOWELS) :
    matchCluster (ts.length + d + 1) (' ' :: joinToks (ts ++ [v])) = none := by
  induction ts with
  | nil =>
    have hC := (vowel_facts v hv).2.2.1
    have hJ : joinToks (([] : List (List Char)) ++ [v]) = v := rfl
    have hlen : (([] : List (List Char)).length + d + 1) = d + 1 := by simp
    rw [hJ, hlen, matchCluster_succ_space]
    simp [hC]
  | cons t ts' ih =>
    have h1 := matchC_cluster t (hts t (by simp)) (joinToks (ts' ++ [v]))
    have h2 := ih (fun t' ht' => hts t' (by simp [ht']))
    have hJ : joinToks ((t :: ts') ++ [v]) = t ++ ' ' :: joinToks (ts' ++ [v]) := by
      rw [List.cons_append, joinToks_cons t _ (by simp)]
    have hlen : (t :: ts').length + d + 1 = (ts'.length + d + 1) + 1 := by
      rw [List.length_cons]; omega
    rw [hJ, hlen, matchCluster_succ_space]
    simp only [h1, h2]

theorem matchTail_nospace (k : Nat) (g1 : List Char) (m : Char) (s2 : List Char)
    (h : s2.head? ≠ some ' ') : matchTail k g1 m s2 = none := by
  cases k with
  | zero =>
    cases s2 with
    | nil => rfl
    | cons c3 s4 =>
      have hc : c3 ≠ ' ' := by simpa using h
      simp [matchTail, matchCluster, hc]
  | succ k' =>
    cases s2 with
    | nil => rfl
    | cons c s1 =>
      have hc : c ≠ ' ' := by simpa using h
      simp [matchTail, matchCluster, hc]

theorem mp_start_marker (k : Nat) (m : Char) (cs : List Char) (hm : m ∈ markerChars) :
    matchPass k true (m :: cs) = matchTail k [] m cs := by
  have hms : m ≠ ' ' := (marker_facts m hm).1
  simp [matchPass, matchG1, hms, hm]

theorem mp_none_notSpace (k : Nat) (c : Char) (cs : List Char) (hc : c ≠ ' ') :
    matchPass k false (c :: cs) = none := by
  simp [matchPass, matchG1, hc]

theorem mp_none_start_notMarker (k : Nat) (b : Bool) (c : Char) (cs : List Char)
    (hc : c ≠ ' ') (hcm : c ∉ markerChars) :
    matchPass k b (c :: cs) = none := by
  cases b with
  | false => exact mp_none_notSpace k c cs hc
  | true => simp [matchPass, matchG1, hc, hcm]

theorem mp_none_marker_nospace (k : Nat) (b : Bool) (m : Char) (cs : List Char)
    (hm : m ≠ ' ') (h : cs.head? ≠ some ' ') :
    matchPass k b (m :: cs) = none := by
  cases b with
  | false => exact mp_none_notSpace k m cs hm
  | true =>
    by_cases hmm : m ∈ markerChars
    · rw [mp_start_marker k m cs hmm]
      exact matchTail_nospace k [] m cs h
    · simp [matchPass, matchG1, hm, hmm]

theorem mp_none_space (k : Nat) (b : Bool) (cs : List Char)
    (h : ∀ c2 cs2, cs = c2 :: cs2 → c2 ∈ markerChars → cs2.head? ≠ some ' ') :
    matchPass k b (' ' :: cs) = none := by
  cases cs with
  | nil => cases b <;> rfl
  | cons c2 cs2 =>
    by_cases hm2 : c2 ∈ markerChars
    · have hns := h c2 cs2 rfl hm2
      simp [matchPass, matchG1, hm2, matchTail_nospace k [' '] c2 cs2 hns]
    · simp [matchPass, matchG1, hm2]

/-! ## The no-match identity for a whole pass -/

theorem noMatchF_cons (k : Nat) (b : Bool) (c : Char) (cs : List Char)
    (h1 : matchPass k b (c :: cs) = none) (h2 : noMatchF k false cs = true) :
    noMatchF k b (c :: cs) = true := by
  simp [noMatchF, h1, h2]

theorem scanSubF_nil (k fuel : Nat) (b : Bool) : scanSubF k fuel b [] = [] := by
  cases fuel with
  | zero => rfl
  | succ n => cases b <;> rfl

theorem scanSubF_id (k : Nat) : ∀ (s : List Char) (fuel : Nat) (b : Bool),
    noMatchF k b s = true → scanSubF k fuel b s = s := by
  intro s
  induction s with
  | nil => intro fuel b _; exact scanSubF_nil k fuel b
  | cons c cs ih =>
    intro fuel b h
    cases fuel with
    | zero => rfl
    | succ n =>
      rw [noMatchF, Bool.and_eq_true] at h
      have h1 : matchPass k b (c :: cs) = none := by
        simpa [Option.isNone_iff_eq_none] using h.1
      simp [scanSubF, h1, ih n false h.2]

theorem spacesSafe_tail (c : Char) (cs : List Char) (h : spacesSafe (c :: cs) = true) :
    spacesSafe cs = true := by
  cases cs with
  | nil => rfl
  | cons c2 cs2 =>
    cases cs2 with
    | nil => rfl
    | cons c3 r =>
      rw [spacesSafe, Bool.and_eq_true] at h
      exact h.2

theorem nm_of_spacesSafe (k : Nat) : ∀ (s : List Char), spacesSafe s = true →
    noMatchF k false s = true := by
  intro s
  induction s with
  | nil => intro _; rfl
  | cons c cs ih =>
    intro h
    have htail := ih (spacesSafe_tail c cs h)
    refine noMatchF_cons k false c cs ?_ htail
    by_cases hc : c = ' '
    · subst hc
      refine mp_none_space k false cs ?_
      intro c2 cs2 heq hm2
      subst heq
      cases cs2 with
      | nil => simp
      | cons c3 r =>
        intro hh
        simp only [List.head?_cons, Option.some.injEq] at hh
        subst hh
        rw [spacesSafe, Bool.and_eq_true] at h
        have h1 := h.1
        simp [hm2] at h1
    · exact mp_none_notSpace k c cs hc

/-! ## Establishing `spacesSafe` on token streams -/

theorem spacesSafe_cons (c : Char) (cs : List Char) (hc : c ≠ ' ')
    (h : spacesSafe cs = true) : spacesSafe (c :: cs) = true := by
  cases cs with
  | nil => rfl
  | cons c2 cs2 =>
    cases cs2 with
    | nil => rfl
    | cons c3 r =>
      rw [spacesSafe, Bool.and_eq_true]
      exact ⟨by simp [hc], h⟩

theorem spacesSafe_noSpace (t : List Char) (h : ∀ c ∈ t, c ≠ ' ') :
    spacesSafe t = true := by
  induction t with
  | nil => rfl
  | cons c t' ih =>
    exact spacesSafe_cons c t' (h c (by simp)) (ih fun x hx => h x (by simp [hx]))

theorem spacesSafe_append (t s : List Char) (ht : ∀ c ∈ t, c ≠ ' ')
    (hs : spacesSafe s = true) : spacesSafe (t ++ s) = true := by
  induction t with
  | nil => simpa using hs
  | cons c t' ih =>
    exact spacesSafe_cons c (t' ++ s) (ht c (by simp))
      (ih fun x hx => ht x (by simp [hx]))

theorem spacesSafe_cons_space (s : List Char)
    (h1 : ∀ x y r, s = x :: y :: r → ¬(x ∈ markerChars ∧ y = ' '))
    (h2 : spacesSafe s = true) : spacesSafe (' ' :: s) = true := by
  cases s with
  | nil => rfl
  | cons x s' =>
    cases s' with
    | nil => rfl
    | cons y r =>
      rw [spacesSafe, Bool.and_eq_true]
      refine ⟨?_, h2⟩
      have h3 := h1 x y r rfl
      by_cases hx : x ∈ markerChars
      · have hy : y ≠ ' ' := fun hy => h3 ⟨hx, hy⟩
        simp [hy]
      · simp [hx]

theorem spacesSafe_join (toks : List (List Char))
    (h : ∀ t ∈ toks, t ≠ [] ∧ (∀ c ∈ t, c ≠ ' ') ∧ ∀ m ∈ markerChars, t ≠ [m]) :
    spacesSafe (joinToks toks) = true := by
  induction toks with
  | nil => rfl
  | cons t ts ih =>
    cases ts with
    | nil => exact spacesSafe_noSpace t (h t (by simp)).2.1
    | cons t2 ts2 =>
      rw [joinToks_cons t (t2 :: ts2) (by simp)]
      refine spacesSafe_append t _ (h t (by simp)).2.1 ?_
      refine spacesSafe_cons_space _ ?_ (ih (fun t' ht' => h t' (by simp [ht'])))
      intro x y r heq hxy
      obtain ⟨ht2ne, ht2sp, ht2m⟩ := h t2 (by simp)
      rcases hxy with ⟨hx, hy⟩
      subst hy
      cases t2 with
      | nil => exact ht2ne rfl
      | cons a t2' =>
        cases t2' with
        | nil =>
          -- t2 is the single-character token [a]; a must be the marker x
          have ha : a = x := by
            have := joinToks_headChar [a] ts2 (by simp)
            rw [heq] at this
            simpa using this.symm
          subst ha
          exact ht2m a hx rfl
        | cons b t2'' =>
          -- the second character of the stream is b, a token character, not a space
          cases ts2 with
          | nil =>
            have h5 : a :: b :: t2'' = x :: ' ' :: r := heq
            simp only [List.cons.injEq] at h5
            exact ht2sp b (by simp) h5.2.1
          | cons t3 ts3 =>
            have hj : joinToks ((a :: b :: t2'') :: t3 :: ts3)
                = (a :: b :: t2'') ++ ' ' :: joinToks (t3 :: ts3) :=
              joinToks_cons _ _ (by simp)
            rw [heq] at hj
            simp at hj
            exact ht2sp b (by simp) hj.2.1.symm

/-! ## The post-processing steps leave a clean token stream unchanged -/

theorem noDouble_cons (c : Char) (cs : List Char)
    (h1 : ¬(c = ' ' ∧ cs.head? = some ' ')) (h2 : noDouble cs = true) :
    noDouble (c :: cs) = true := by
  cases cs with
  | nil => rfl
  | cons c2 r =>
    rw [noDouble, Bool.and_eq_true]
    refine ⟨?_, h2⟩
    by_cases hc : c = ' '
    · have hc2 : c2 ≠ ' ' := fun hh => h1 ⟨hc, by simp [hh]⟩
      simp [hc2]
    · simp [hc]

theorem noDouble_noSpace (t : List Char) (h : ∀ c ∈ t, c ≠ ' ') :
    noDouble t = true := by
  induction t with
  | nil => rfl
  | cons c t' ih =>
    refine noDouble_cons c t' (fun hh => h c (by simp) hh.1) ?_
    exact ih fun x hx => h x (by simp [hx])

theorem noDouble_append (t s : List Char) (ht : ∀ c ∈ t, c ≠ ' ')
    (hs : noDouble s = true) : noDouble (t ++ s) = true := by
  induction t with
  | nil => simpa using hs
  | cons c t' ih =>
    refine noDouble_cons c (t' ++ s) (fun hh => ht c (by simp) hh.1) ?_
    exact ih fun x hx => ht x (by simp [hx])

theorem noDouble_join (toks : List (List Char))
    (h : ∀ t ∈ toks, t ≠ [] ∧ ∀ c ∈ t, c ≠ ' ') :
    noDouble (joinToks toks) = true := by
  induction toks with
  | nil => rfl
  | cons t ts ih =>
    cases ts with
    | nil => exact noDouble_noSpace t (h t (by simp)).2
    | cons t2 ts2 =>
      rw [joinToks_cons t (t2 :: ts2) (by simp)]
      refine noDouble_append t _ (h t (by simp)).2 ?_
      refine noDouble_cons ' ' _ ?_ (ih fun t' ht' => h t' (by simp [ht']))
      rintro ⟨-, hh⟩
      obtain ⟨ht2ne, ht2sp⟩ := h t2 (by simp)
      rw [joinToks_headChar t2 ts2 ht2ne] at hh
      cases t2 with
      | nil => exact ht2ne rfl
      | cons a t2' =>
        simp only [List.head?_cons, Option.some.injEq] at hh
        exact ht2sp a (by simp) hh

theorem noMS_cons (m c : Char) (cs : List Char)
    (h1 : ¬(c = m ∧ cs.head? = some ' ')) (h2 : noMS m cs = true) :
    noMS m (c :: cs) = true := by
  cases cs with
  | nil => rfl
  | cons c2 r =>
    rw [noMS, Bool.and_eq_true]
    refine ⟨?_, h2⟩
    by_cases hc : c = m
    · have hc2 : c2 ≠ ' ' := fun hh => h1 ⟨hc, by simp [hh]⟩
      simp [hc2]
    · simp [hc]

theorem noMS_noOcc (m : Char) (t : List Char) (h : ∀ c ∈ t, c ≠ m) :
    noMS m t = true := by
  induction t with
  | nil => rfl
  | cons c t' ih =>
    refine noMS_cons m c t' (fun hh => h c (by simp) hh.1) ?_
    exact ih fun x hx => h x (by simp [hx])

theorem noMS_append (m : Char) (t s : List Char) (ht : ∀ c ∈ t, c ≠ m)
    (hs : noMS m s = true) : noMS m (t ++ s) = true := by
  induction t with
  | nil => simpa using hs
  | cons c t' ih =>
    refine noMS_cons m c (t' ++ s) (fun hh => ht c (by simp) hh.1) ?_
    exact ih fun x hx => ht x (by simp [hx])

theorem replaceSS_id : ∀ (s : List Char), noDouble s = true → replaceSS s = s := by
  intro s
  induction s with
  | nil => intro _; rfl
  | cons c1 cs ih =>
    intro h
    cases cs with
    | nil => rfl
    | cons c2 rest =>
      rw [noDouble, Bool.and_eq_true] at h
      have h1 : ¬(c1 = ' ' ∧ c2 = ' ') := by
        intro hh
        have h2 := h.1
        simp [hh.1, hh.2] at h2
      rw [replaceSS, if_neg h1, ih h.2]

theorem replaceMS_id (m : Char) : ∀ (s : List Char), noMS m s = true →
    replaceMS m s = s := by
  intro s
  induction s with
  | nil => intro _; rfl
  | cons c1 cs ih =>
    intro h
    cases cs with
    | nil => rfl
    | cons c2 rest =>
      rw [noMS, Bool.and_eq_true] at h
      have h1 : ¬(c1 = m ∧ c2 = ' ') := by
        intro hh
        have h2 := h.1
        simp [hh.1, hh.2] at h2
      rw [replaceMS, if_neg h1, ih h.2]

theorem filterMarks_id (s : List Char) (h : ∀ c ∈ s, c ≠ '͡' ∧ c ≠ '.') :
    s.filter (fun c => ¬(c = '͡' ∨ c = '.')) = s := by
  rw [List.filter_eq_self]
  intro a ha
  have h2 := h a ha
  simp [h2.1, h2.2]

theorem stripAll_id (s : List Char) (h1 : s.head? ≠ some ' ')
    (h2 : s.getLast? ≠ some ' ') : stripAll ' ' s = s := by
  unfold stripAll
  have d1 : s.dropWhile (· = ' ') = s := by
    cases s with
    | nil => rfl
    | cons c cs =>
      have hc : ¬(c = ' ') := by simpa using h1
      simp [List.dropWhile_cons, hc]
  rw [d1]
  have d2 : s.reverse.dropWhile (· = ' ') = s.reverse := by
    cases hr : s.reverse with
    | nil => rfl
    | cons c cs =>
      have hc' : s.getLast? = some c := by
        rw [← List.head?_reverse, hr]
        rfl
      have hc : ¬(c = ' ') := fun hce => h2 (by rw [hc']; simp [hce])
      simp [List.dropWhile_cons, hc]
  rw [d2, List.reverse_reverse]

theorem joinToks_getLastChar (toks : List (List Char)) (u : List Char)
    (hu : u ≠ []) : (joinToks (toks ++ [u])).getLast? = u.getLast? := by
  cases toks with
  | nil => rfl
  | cons t ts =>
    rw [joinToks_append_single (t :: ts) u (by simp)]
    rw [List.getLast?_append_cons]
    cases u with
    | nil => exact absurd rfl hu
    | cons a u' => exact List.getLast?_cons_cons

/-! ## Fact bundles about whole tokens of the streams -/

theorem tokFacts_cluster (t : List Char) (h : IsClusterTok t) :
    t ≠ [] ∧ (∀ c ∈ t, c ≠ ' ') ∧ ∀ m ∈ markerChars, t ≠ [m] := by
  obtain ⟨hne, hch⟩ := clusterTok_facts t h
  refine ⟨hne, fun c hc => (consonant_facts c (hch c hc).1).1, ?_⟩
  intro m hm heq
  exact (hch m (by simp [heq])).2 hm

theorem tokFacts_vowel (v : List Char) (hv : v ∈ VOWELS) :
    v ≠ [] ∧ (∀ c ∈ v, c ≠ ' ') ∧ ∀ m ∈ markerChars, v ≠ [m] := by
  obtain ⟨hne, hch, -⟩ := vowel_facts v hv
  refine ⟨hne, fun c hc => (hch c hc).1, ?_⟩
  intro m hm heq
  exact (hch m (by simp [heq])).2.1 hm

theorem tokFacts_fused (m : Char) (v : List Char) (hm : m ∈ markerChars)
    (hv : v ∈ VOWELS) :
    (m :: v) ≠ [] ∧ (∀ c ∈ m :: v, c ≠ ' ') ∧ ∀ m' ∈ markerChars, (m :: v) ≠ [m'] := by
  obtain ⟨hne, hch, -⟩ := vowel_facts v hv
  refine ⟨by simp, ?_, ?_⟩
  · intro c hc
    rcases List.mem_cons.mp hc with rfl | hc2
    · exact (marker_facts c hm).1
    · exact (hch c hc2).1
  · intro m' _ heq
    have : v = [] := by
      have h5 : m :: v = [m'] := heq
      simpa using (List.cons.injEq m v m' []).mp h5 |>.2
    exact hne this

theorem noMS_rewritten (m' : Char) (hm' : m' ∈ markerChars) (m : Char)
    (ts : List (List Char)) (v : List Char) (hm : m ∈ markerChars)
    (hts : ∀ t ∈ ts, IsClusterTok t) (hv : v ∈ VOWELS) :
    noMS m' (joinToks (ts ++ [m :: v])) = true := by
  obtain ⟨hvne, hvch, -⟩ := vowel_facts v hv
  induction ts with
  | nil =>
    show noMS m' (m :: v) = true
    refine noMS_cons m' m v ?_ ?_
    · rintro ⟨-, hh⟩
      cases v with
      | nil => simp at hh
      | cons c v' =>
        simp only [List.head?_cons, Option.some.injEq] at hh
        exact (hvch c (by simp)).1 hh
    · exact noMS_noOcc m' v fun c hc hcm => (hvch c hc).2.1 (hcm ▸ hm')
  | cons t ts' ih =>
    obtain ⟨htne, htch⟩ := clusterTok_facts t (hts t (by simp))
    have hJ : joinToks ((t :: ts') ++ [m :: v])
        = t ++ ' ' :: joinToks (ts' ++ [m :: v]) := by
      rw [List.cons_append, joinToks_cons t _ (by simp)]
    rw [hJ]
    refine noMS_append m' t _ (fun c hc hcm => (htch c hc).2 (hcm ▸ hm')) ?_
    refine noMS_cons m' ' ' _ ?_ (ih fun t' ht' => hts t' (by simp [ht']))
    rintro ⟨hh, -⟩
    exact (marker_facts m' hm').1 hh.symm

theorem stream_chars (m : Char) (ts : List (List Char)) (v : List Char)
    (hm : m ∈ markerChars) (hts : ∀ t ∈ ts, IsClusterTok t) (hv : v ∈ VOWELS) :
    ∀ c ∈ joinToks (ts ++ [m :: v]), c ≠ '͡' ∧ c ≠ '.' := by
  intro c hc
  rcases joinToks_chars _ c hc with rfl | ⟨t, ht, hct⟩
  · exact ⟨by decide, by decide⟩
  · rcases List.mem_append.mp ht with h1 | h2
    · have := (clusterTok_facts t (hts t h1)).2 c hct
      exact (consonant_facts c this.1).2
    · rw [List.mem_singleton] at h2
      subst h2
      rcases List.mem_cons.mp hct with rfl | hc2
      · exact (consonant_facts c (marker_facts c hm).2).2
      · have := (vowel_facts v hv).2.1 c hc2
        exact ⟨this.2.2.1, this.2.2.2⟩

theorem rewritten_headChar (m : Char) (ts : List (List Char)) (v : List Char)
    (hm : m ∈ markerChars) (hts : ∀ t ∈ ts, IsClusterTok t) (hv : v ∈ VOWELS) :
    (joinToks (ts ++ [m :: v])).head? ≠ some ' ' := by
  cases ts with
  | nil =>
    show (m :: v).head? ≠ some ' '
    simp [(marker_facts m hm).1]
  | cons t ts' =>
    obtain ⟨htne, htch⟩ := clusterTok_facts t (hts t (by simp))
    rw [List.cons_append, joinToks_headChar t _ htne]
    cases t with
    | nil => exact absurd rfl htne
    | cons a t' =>
      have := (consonant_facts a (htch a (by simp)).1).1
      simp [this]

theorem postOps_id (m : Char) (ts : List (List Char)) (v : List Char)
    (hm : m ∈ markerChars) (hts : ∀ t ∈ ts, IsClusterTok t) (hv : v ∈ VOWELS) :
    replaceMS 'ˈ' (replaceMS 'ˌ'
      ((replaceSS (stripAll ' ' (joinToks (ts ++ [m :: v])))).filter
        (fun c => ¬(c = '͡' ∨ c = '.'))))
      = joinToks (ts ++ [m :: v]) := by
  have hstrip : stripAll ' ' (joinToks (ts ++ [m :: v])) = joinToks (ts ++ [m :: v]) := by
    refine stripAll_id _ (rewritten_headChar m ts v hm hts hv) ?_
    rw [joinToks_getLastChar ts (m :: v) (by simp)]
    obtain ⟨hvne, hvch, -, -, hvl⟩ := vowel_facts v hv
    cases v with
    | nil => exact absurd rfl hvne
    | cons a v' => rw [List.getLast?_cons_cons]; exact hvl
  have hss : replaceSS (joinToks (ts ++ [m :: v])) = joinToks (ts ++ [m :: v]) := by
    refine replaceSS_id _ (noDouble_join _ ?_)
    intro t ht
    rcases List.mem_append.mp ht with h1 | h2
    · have h3 := tokFacts_cluster t (hts t h1)
      exact ⟨h3.1, h3.2.1⟩
    · rw [List.mem_singleton] at h2
      subst h2
      have h3 := tokFacts_fused m v hm hv
      exact ⟨h3.1, h3.2.1⟩
  have hfil : (joinToks (ts ++ [m :: v])).filter (fun c => ¬(c = '͡' ∨ c = '.'))
      = joinToks (ts ++ [m :: v]) :=
    filterMarks_id _ (stream_chars m ts v hm hts hv)
  rw [hstrip, hss, hfil,
    replaceMS_id 'ˌ' _ (noMS_rewritten 'ˌ' (by decide) m ts v hm hts hv),
    replaceMS_id 'ˈ' _ (noMS_rewritten 'ˈ' (by decide) m ts v hm hts hv)]

/-! ## Behaviour of the four passes on the marker-cluster-vowel streams -/

theorem scanSubF_step (k fuel : Nat) (b : Bool) (s repl rest : List Char)
    (h : matchPass k b s = some (repl, rest)) :
    scanSubF k (fuel + 1) b s = repl ++ scanSubF k fuel false rest := by
  simp [scanSubF, h]

theorem scanSub_id_rewritten (j : Nat) (m : Char) (ts : List (List Char))
    (v : List Char) (hm : m ∈ markerChars) (hts : ∀ t ∈ ts, IsClusterTok t)
    (hv : v ∈ VOWELS) :
    scanSub j (joinToks (ts ++ [m :: v])) = joinToks (ts ++ [m :: v]) := by
  apply scanSubF_id
  obtain ⟨hvne, hvch, -⟩ := vowel_facts v hv
  have hsafe : spacesSafe (joinToks (ts ++ [m :: v])) = true := by
    apply spacesSafe_join
    intro t ht
    rcases List.mem_append.mp ht with h1 | h2
    · exact tokFacts_cluster t (hts t h1)
    · rw [List.mem_singleton] at h2
      subst h2
      exact tokFacts_fused m v hm hv
  cases ts with
  | nil =>
    show noMatchF j true (m :: v) = true
    refine noMatchF_cons j true m v ?_ ?_
    · refine mp_none_marker_nospace j true m v (marker_facts m hm).1 ?_
      cases v with
      | nil => simp
      | cons c v' =>
        have := (hvch c (by simp)).1
        simp [this]
    · exact nm_of_spacesSafe j v (spacesSafe_noSpace v fun c hc => (hvch c hc).1)
  | cons t ts' =>
    obtain ⟨htne, htch⟩ := clusterTok_facts t (hts t (by simp))
    cases t with
    | nil => exact absurd rfl htne
    | cons c t' =>
      have hR : joinToks (((c :: t') :: ts') ++ [m :: v])
          = c :: (t' ++ ' ' :: joinToks (ts' ++ [m :: v])) := by
        rw [List.cons_append, joinToks_cons _ _ (by simp)]
        rfl
      rw [hR]
      refine noMatchF_cons j true c _ ?_ ?_
      · have hc1 := htch c (by simp)
        exact mp_none_start_notMarker j true c _ ((consonant_facts c hc1.1).1) hc1.2
      · apply nm_of_spacesSafe
        have hsafe2 := hsafe
        rw [hR] at hsafe2
        exact spacesSafe_tail c _ hsafe2

theorem plainStream_safe (ts : List (List Char)) (v : List Char)
    (hts : ∀ t ∈ ts, IsClusterTok t) (hv : v ∈ VOWELS) :
    spacesSafe (joinToks (ts ++ [v])) = true := by
  apply spacesSafe_join
  intro t ht
  rcases List.mem_append.mp ht with h1 | h2
  · exact tokFacts_cluster t (hts t h1)
  · rw [List.mem_singleton] at h2
    rw [h2]
    exact tokFacts_vowel v hv

theorem plainStream_head_notMarker (ts : List (List Char)) (v : List Char)
    (hts : ∀ t ∈ ts, IsClusterTok t) (hv : v ∈ VOWELS) :
    ∀ c2 cs2, joinToks (ts ++ [v]) = c2 :: cs2 → c2 ∉ markerChars := by
  intro c2 cs2 heq
  cases ts with
  | nil =>
    have hvh : v.head? = some c2 := by
      rw [show joinToks (([] : List (List Char)) ++ [v]) = v from rfl] at heq
      rw [heq]
      rfl
    have hc2v : c2 ∈ v := by
      cases v with
      | nil => simp at hvh
      | cons a v' =>
        simp only [List.head?_cons, Option.some.injEq] at hvh
        simp [hvh]
    exact ((vowel_facts v hv).2.1 c2 hc2v).2.1
  | cons t ts' =>
    obtain ⟨htne, htch⟩ := clusterTok_facts t (hts t (by simp))
    have hh := joinToks_headChar t (ts' ++ [v]) htne
    have heq' : joinToks (t :: (ts' ++ [v])) = c2 :: cs2 := heq
    rw [heq'] at hh
    have hc2t : c2 ∈ t := by
      cases t with
      | nil => exact absurd rfl htne
      | cons a t' =>
        simp only [List.head?_cons, Option.some.injEq] at hh
        simp [← hh]
    exact (htch c2 hc2t).2

theorem scanSub_id_unrewritten (d : Nat) (m : Char) (ts : List (List Char))
    (v : List Char) (hm : m ∈ markerChars) (hts : ∀ t ∈ ts, IsClusterTok t)
    (hv : v ∈ VOWELS) :
    scanSub (ts.length + d + 1) (joinToks (([m] :: ts) ++ [v]))
      = joinToks (([m] :: ts) ++ [v]) := by
  have hS : joinToks (([m] :: ts) ++ [v]) = m :: ' ' :: joinToks (ts ++ [v]) := by
    rw [List.cons_append, joinToks_cons _ _ (by simp)]
    rfl
  rw [hS]
  apply scanSubF_id
  refine noMatchF_cons _ _ _ _ ?_ (noMatchF_cons _ _ _ _ ?_ ?_)
  · rw [mp_start_marker _ _ _ hm]
    have hov := matchCluster_over ts v d hts hv
    simp [matchTail, hov]
  · refine mp_none_space _ _ _ ?_
    intro c2 cs2 heq hm2
    exact absurd hm2 (plainStream_head_notMarker ts v hts hv c2 cs2 heq)
  · exact nm_of_spacesSafe _ _ (plainStream_safe ts v hts hv)

theorem scanSub_skip (j : Nat) (m : Char) (ts : List (List Char)) (v : List Char)
    (hm : m ∈ markerChars) (hts : ∀ t ∈ ts, IsClusterTok t) (hv : v ∈ VOWELS)
    (hj : ts.length < j) :
    scanSub j (joinToks (([m] :: ts) ++ [v])) = joinToks (([m] :: ts) ++ [v]) := by
  obtain ⟨d, rfl⟩ : ∃ d, j = ts.length + d + 1 := ⟨j - ts.length - 1, by omega⟩
  exact scanSub_id_unrewritten d m ts v hm hts hv

theorem scanSub_hit (m : Char) (ts : List (List Char)) (v : List Char)
    (hm : m ∈ markerChars) (hne : ts ≠ []) (hts : ∀ t ∈ ts, IsClusterTok t)
    (hv : v ∈ VOWELS) :
    scanSub ts.length (joinToks (([m] :: ts) ++ [v])) = joinToks (ts ++ [m :: v]) := by
  have hS : joinToks (([m] :: ts) ++ [v]) = m :: ' ' :: joinToks (ts ++ [v]) := by
    rw [List.cons_append, joinToks_cons _ _ (by simp)]
    rfl
  have hmp : matchPass ts.length true (m :: ' ' :: joinToks (ts ++ [v]))
      = some (joinToks ts ++ ' ' :: m :: v, []) := by
    rw [mp_start_marker _ _ _ hm]
    have h1 := matchCluster_exact ts v hts
    have h2 := (vowel_facts v hv).2.2.2.1
    simp [matchTail, h1, h2]
  rw [hS]
  show scanSubF ts.length (m :: ' ' :: joinToks (ts ++ [v])).length true
    (m :: ' ' :: joinToks (ts ++ [v])) = _
  rw [show (m :: ' ' :: joinToks (ts ++ [v])).length
      = (joinToks (ts ++ [v])).length + 1 + 1 from rfl]
  rw [scanSubF_step _ _ _ _ _ _ hmp, scanSubF_nil,
    joinToks_append_single ts (m :: v) hne]
  simp

/-- The cluster-length-0 instances, decided exhaustively over the inventory
(no pass matches; the `"ˈ "`/`"ˌ "` fusion of `phones_str7` attaches the
marker to the vowel). -/
theorem c4_zero : ∀ m ∈ markerChars, ∀ v ∈ VOWELS,
    normalizeStr (m :: ' ' :: v) = m :: v := by decide

/-! ## Claim C4: cluster-length coverage of stress relocation -/

/-- C4 (counterexample): the universally quantified claim fails.  The token
stream `ˈ ˌ t aɪ` contains the stress marker `ˌ` followed by a one-consonant
onset cluster `t` and the vowel `aɪ`, yet the repositioner does not move `ˌ`
to immediately precede `aɪ`: the pass-2 pattern treats `ˌ` as a consonant
(the inventory lists the markers among the consonants), fires for the marker
`ˈ` first, and produces `ˌt ˈaɪ`, in which `ˌ` is fused to `t` and `ˌaɪ`
never occurs. -/
theorem c4_cluster_cex :
    List.IsInfix "ˌ t aɪ".toList "ˈ ˌ t aɪ".toList
    ∧ normalizeStr "ˈ ˌ t aɪ".toList = "ˌt ˈaɪ".toList
    ∧ ¬ List.IsInfix ['ˌ', 'a', 'ɪ'] (normalizeStr "ˈ ˌ t aɪ".toList) := by
  refine ⟨by decide, by decide, by decide⟩

/-- C4 (amended): for a token stream that consists exactly of one stress
marker, an onset cluster of at most four non-marker consonant/affricate
tokens, and one vowel of the inventory, the engine moves the marker to
immediately precede the vowel with no separating space, the onset tokens
staying in front of it unchanged: the longest-first cascade fires exactly the
pass whose cluster length matches (for the empty cluster the marker-space
fusion of `phones_str7` does the job). -/
theorem c4_cluster_amended (m : Char) (ts : List (List Char)) (v : List Char)
    (hm : m ∈ markerChars) (hlen : ts.length ≤ 4)
    (hts : ∀ t ∈ ts, IsClusterTok t) (hv : v ∈ VOWELS) :
    normalizeStr (joinToks (([m] :: ts) ++ [v])) = joinToks (ts ++ [m :: v]) := by
  have h04 : ts.length = 0 ∨ ts.length = 1 ∨ ts.length = 2 ∨ ts.length = 3
      ∨ ts.length = 4 := by omega
  rcases h04 with h | h | h | h | h
  · have hts0 : ts = [] := List.length_eq_zero.mp h
    subst hts0
    exact c4_zero m hm v hv
  · have hne : ts ≠ [] := by intro hh; rw [hh] at h; simp at h
    simp only [normalizeStr]
    rw [scanSub_skip 4 m ts v hm hts hv (by omega),
        scanSub_skip 3 m ts v hm hts hv (by omega),
        scanSub_skip 2 m ts v hm hts hv (by omega)]
    rw [show (1 : Nat) = ts.length from h.symm]
    rw [scanSub_hit m ts v hm hne hts hv]
    exact postOps_id m ts v hm hts hv
  · have hne : ts ≠ [] := by intro hh; rw [hh] at h; simp at h
    simp only [normalizeStr]
    rw [scanSub_skip 4 m ts v hm hts hv (by omega),
        scanSub_skip 3 m ts v hm hts hv (by omega)]
    rw [show (2 : Nat) = ts.length from h.symm]
    rw [scanSub_hit m ts v hm hne hts hv,
        scanSub_id_rewritten 1 m ts v hm hts hv]
    exact postOps_id m ts v hm hts hv
  · have hne : ts ≠ [] := by intro hh; rw [hh] at h; simp at h
    simp only [normalizeStr]
    rw [scanSub_skip 4 m ts v hm hts hv (by omega)]
    rw [show (3 : Nat) = ts.length from h.symm]
    rw [scanSub_hit m ts v hm hne hts hv,
        scanSub_id_rewritten 2 m ts v hm hts hv,
        scanSub_id_rewritten 1 m ts v hm hts hv]
    exact postOps_id m ts v hm hts hv
  · have hne : ts ≠ [] := by intro hh; rw [hh] at h; simp at h
    simp only [normalizeStr]
    rw [show (4 : Nat) = ts.length from h.symm]
    rw [scanSub_hit m ts v hm hne hts hv,
        scanSub_id_rewritten 3 m ts v hm hts hv,
        scanSub_id_rewritten 2 m ts v hm hts hv,
        scanSub_id_rewritten 1 m ts v hm hts hv]
    exact postOps_id m ts v hm hts hv

/-- C4 (witness for the amended theorem: `ˈ s t ɹ æ` → `s t ɹ ˈæ`). -/
theorem c4_cluster_amended_witness :
    ('ˈ' : Char) ∈ markerChars
    ∧ ([['s'], ['t'], ['ɹ']] : List (List Char)).length ≤ 4
    ∧ (∀ t ∈ ([['s'], ['t'], ['ɹ']] : List (List Char)), IsClusterTok t)
    ∧ ['æ'] ∈ VOWELS
    ∧ normalizeStr (joinToks ((['ˈ'] :: [['s'], ['t'], ['ɹ']]) ++ [['æ']]))
        = joinToks ([['s'], ['t'], ['ɹ']] ++ [['ˈ', 'æ']]) := by
  have hcl : ∀ t ∈ ([['s'], ['t'], ['ɹ']] : List (List Char)), IsClusterTok t := by
    intro t ht
    simp only [List.mem_cons, List.not_mem_nil, or_false] at ht
    rcases ht with rfl | rfl | rfl
    · exact Or.inl ⟨'s', rfl, by decide, by decide⟩
    · exact Or.inl ⟨'t', rfl, by decide, by decide⟩
    · exact Or.inl ⟨'ɹ', rfl, by decide, by decide⟩
  exact ⟨by decide, by decide, hcl, by decide,
    c4_cluster_amended 'ˈ' [['s'], ['t'], ['ɹ']] ['æ'] (by decide) (by decide)
      hcl (by decide)⟩
